import Mathlib

/-!
Verification of the `finch` asset-directory-to-C-header generator.

The program (src/main.rs) walks a directory tree twice and emits a C header
declaring a nested struct plus an implementation initializing it with the
embedded file contents.  Strings are modelled at two levels: file names and
raw file contents are `List Nat` of bytes, decoded text is a `List Nat` of
Unicode scalar values, and the emitted C code is a `List String` of output
lines (one element per `writeln!`; the fragments of `write!` inside one line
are joined).
-/

set_option maxHeartbeats 1000000

namespace Finch

/-- Replace every occurrence of the scalar `pat` by the scalar sequence `rep`.
Models Rust `str::replace` with a single-`char` pattern, acting on the
sequence of Unicode scalar values of the string. -/
def replace1 (pat : Nat) (rep : List Nat) : List Nat → List Nat
  | [] => []
  | c :: cs => (if c = pat then rep else [c]) ++ replace1 pat rep cs

/-- Concatenation of the images of `f` over a list. -/
def concatMap (f : α → List β) : List α → List β
  | [] => []
  | a :: l => f a ++ concatMap f l

/-- Number of UTF-8 bytes of one Unicode scalar value (Rust `char::len_utf8`). -/
def scalarUtf8Size (c : Nat) : Nat :=
  if c < 128 then 1 else if c < 2048 then 2 else if c < 65536 then 3 else 4

/-- UTF-8 byte length of a sequence of scalar values (Rust `str::len`). -/
def utf8Len : List Nat → Nat
  | [] => 0
  | c :: cs => scalarUtf8Size c + utf8Len cs

/-- Decode one scalar value from the byte `b` followed by the bytes `rest`,
returning the scalar and the remaining bytes.  Strict UTF-8: rejects overlong
forms, surrogates, values above U+10FFFF, and stray or missing continuation
bytes. -/
def utf8Step (b : Nat) (rest : List Nat) : Option (Nat × List Nat) :=
  if b < 128 then some (b, rest)
  else if 194 ≤ b ∧ b < 224 then
    match rest with
    | b1 :: r =>
      if 128 ≤ b1 ∧ b1 < 192 then some ((b - 192) * 64 + (b1 - 128), r) else none
    | [] => none
  else if 224 ≤ b ∧ b < 240 then
    match rest with
    | b1 :: b2 :: r =>
      if (128 ≤ b1 ∧ b1 < 192) ∧ (128 ≤ b2 ∧ b2 < 192) ∧
          2048 ≤ (b - 224) * 4096 + (b1 - 128) * 64 + (b2 - 128) ∧
          ¬ (55296 ≤ (b - 224) * 4096 + (b1 - 128) * 64 + (b2 - 128) ∧
             (b - 224) * 4096 + (b1 - 128) * 64 + (b2 - 128) < 57344) then
        some ((b - 224) * 4096 + (b1 - 128) * 64 + (b2 - 128), r)
      else none
    | _ => none
  else if 240 ≤ b ∧ b < 245 then
    match rest with
    | b1 :: b2 :: b3 :: r =>
      if (128 ≤ b1 ∧ b1 < 192) ∧ (128 ≤ b2 ∧ b2 < 192) ∧ (128 ≤ b3 ∧ b3 < 192) ∧
          65536 ≤ (b - 240) * 262144 + (b1 - 128) * 4096 + (b2 - 128) * 64 + (b3 - 128) ∧
          (b - 240) * 262144 + (b1 - 128) * 4096 + (b2 - 128) * 64 + (b3 - 128) < 1114112 then
        some ((b - 240) * 262144 + (b1 - 128) * 4096 + (b2 - 128) * 64 + (b3 - 128), r)
      else none
    | _ => none
  else none

/-- Fuel-indexed UTF-8 decoding loop; the fuel only bounds the number of
decoded scalars and is in practice the byte count. -/
def utf8DecodeFuel : Nat → List Nat → Option (List Nat)
  | _, [] => some []
  | 0, _ :: _ => none
  | n + 1, b :: rest =>
    (utf8Step b rest).bind fun vr => (utf8DecodeFuel n vr.2).map (vr.1 :: ·)

/-- Strict UTF-8 decoder, bytes to Unicode scalar values.  Models the UTF-8
validation performed by Rust's `OsStr::to_str` and `fs::read_to_string`. -/
def utf8Decode (bs : List Nat) : Option (List Nat) :=
  utf8DecodeFuel bs.length bs

theorem scalarUtf8Size_pos (c : Nat) : 1 ≤ scalarUtf8Size c := by
  simp only [scalarUtf8Size]
  split_ifs <;> omega

/-- One decoding step consumes exactly as many bytes as the UTF-8 size of the
scalar it produces. -/
theorem utf8Step_spec (b : Nat) (rest : List Nat) (v : Nat) (r : List Nat)
    (h : utf8Step b rest = some (v, r)) :
    scalarUtf8Size v + r.length = rest.length + 1 := by
  simp only [utf8Step] at h
  split_ifs at h with h1 h2 h3 h4
  · simp only [Option.some.injEq, Prod.mk.injEq] at h
    obtain ⟨hv, hr⟩ := h
    subst hv
    subst hr
    simp only [scalarUtf8Size]
    split_ifs <;> omega
  · split at h
    next b1 r1 =>
      split at h
      next hc =>
        simp only [Option.some.injEq, Prod.mk.injEq] at h
        obtain ⟨hv, hr⟩ := h
        subst hv
        subst hr
        simp only [List.length_cons, scalarUtf8Size]
        split_ifs <;> omega
      next hc => simp at h
    next => simp at h
  · split at h
    next b1 b2 r1 =>
      split at h
      next hc =>
        simp only [Option.some.injEq, Prod.mk.injEq] at h
        obtain ⟨hv, hr⟩ := h
        subst hv
        subst hr
        simp only [List.length_cons, scalarUtf8Size]
        split_ifs <;> omega
      next hc => simp at h
    next => simp at h
  · split at h
    next b1 b2 b3 r1 =>
      split at h
      next hc =>
        simp only [Option.some.injEq, Prod.mk.injEq] at h
        obtain ⟨hv, hr⟩ := h
        subst hv
        subst hr
        simp only [List.length_cons, scalarUtf8Size]
        split_ifs <;> omega
      next hc => simp at h
    next => simp at h

/-- Auxiliary form of the decoder length invariant, by induction on fuel. -/
theorem utf8DecodeFuel_length : ∀ (n : Nat) (bs cs : List Nat), bs.length ≤ n →
    utf8DecodeFuel n bs = some cs → utf8Len cs = bs.length := by
  intro n
  induction n with
  | zero =>
    intro bs cs hle h
    cases bs with
    | nil =>
      simp only [utf8DecodeFuel, Option.some.injEq] at h
      subst h
      rfl
    | cons b rest => simp at hle
  | succ n ih =>
    intro bs cs hle h
    cases bs with
    | nil =>
      simp only [utf8DecodeFuel, Option.some.injEq] at h
      subst h
      rfl
    | cons b rest =>
      rw [utf8DecodeFuel] at h
      cases hs : utf8Step b rest with
      | none => rw [hs] at h; simp at h
      | some vr =>
        obtain ⟨v, r⟩ := vr
        rw [hs] at h
        simp only [Option.bind_eq_bind, Option.some_bind] at h
        cases hr : utf8DecodeFuel n r with
        | none => rw [hr] at h; simp at h
        | some cs0 =>
          rw [hr] at h
          simp only [Option.map_some', Option.some.injEq] at h
          subst h
          have hstep := utf8Step_spec b rest v r hs
          have hrle : r.length ≤ n := by
            have := scalarUtf8Size_pos v
            simp only [List.length_cons] at hle
            omega
          have hlen := ih r cs0 hrle hr
          simp only [utf8Len, List.length_cons]
          omega

/-- A successful UTF-8 decode accounts for every input byte: the UTF-8 byte
length of the decoded text equals the raw byte count. -/
theorem utf8Decode_length {bs cs : List Nat} (h : utf8Decode bs = some cs) :
    utf8Len cs = bs.length :=
  utf8DecodeFuel_length bs.length bs cs le_rfl h

/-- The scalar values of a Lean string (Rust `str::chars` as `u32`s). -/
def strScalars (s : String) : List Nat := s.toList.map Char.toNat

/-- Rebuild a string from scalar values (used to render decoded names). -/
def scalarsToString (l : List Nat) : String := String.mk (l.map Char.ofNat)

/-- Index of the last byte equal to `.` (46) in a byte list, if any. -/
def lastDot : List Nat → Option Nat
  | [] => none
  | b :: rest =>
    match lastDot rest with
    | some i => some (i + 1)
    | none => if b = 46 then some 0 else none

/-- Rust `split_file_at_dot`: split a file name at the last dot occurring at
position at least 1; the name `..` and names with no such dot have no
extension. -/
def splitDot (name : List Nat) : List Nat × Option (List Nat) :=
  if name = [46, 46] then (name, none)
  else
    match name with
    | [] => (name, none)
    | _ :: rest =>
      match lastDot rest with
      | none => (name, none)
      | some i => (name.take (i + 1), some (name.drop (i + 2)))

/-- Rust `Path::file_stem` of a directory entry's file name (always present
for `read_dir` entries, hence total). -/
def fileStem (name : List Nat) : List Nat := (splitDot name).1

/-- Rust `Path::extension` of a directory entry's file name. -/
def extension (name : List Nat) : Option (List Nat) := (splitDot name).2

/-- C identifier derived in `struct_fieldify`:
`path.file_stem().unwrap().to_str().unwrap()` then `name.replace('-', "_")`.
`none` models the `to_str` unwrap panic on a non-UTF-8 name. -/
def identOf (name : List Nat) : Option (List Nat) :=
  (utf8Decode (fileStem name)).map (replace1 45 [95])

/-- Output classification of an asset file (`enum AssetOutputType`). -/
inductive AssetOutputType
  | String
  | Bytes
  deriving DecidableEq

/-- The fixed extension allow-list of `guess_from_filepath`. -/
def allowedExtensions : List String :=
  ["txt", "json", "xml", "csv", "html", "htm", "css", "js", "md", "toml", "rs",
    "glsl", "frag", "vert"]

/-- Translation of `AssetOutputType::guess_from_filepath`, as a function of
the path's file name bytes: no extension, or an extension that is not valid
UTF-8, yields `Bytes`; a decoded extension is matched against the allow-list. -/
def AssetOutputType.guess_from_filepath (name : List Nat) : AssetOutputType :=
  match extension name with
  | some ext =>
    match utf8Decode ext with
    | some s => if s ∈ allowedExtensions.map strScalars then .String else .Bytes
    | none => .Bytes
  | none => .Bytes

/-- The four escape passes of the String branch of `struct_fieldify_impl`, in
source order: `contents.replace('\n', "\\n")`, then `'\r'`, `'\t'`, `'"'`. -/
def escape (cs : List Nat) : List Nat :=
  replace1 34 [92, 34] (replace1 9 [92, 116] (replace1 13 [92, 114] (replace1 10 [92, 110] cs)))

/-- Per-character description of the combined escaping: the four escapable
characters become backslash pairs, everything else is copied verbatim. -/
def escChar (c : Nat) : List Nat :=
  if c = 10 then [92, 110]
  else if c = 13 then [92, 114]
  else if c = 9 then [92, 116]
  else if c = 34 then [92, 34]
  else [c]

/-- Number of escapable characters (`\n`, `\r`, `\t`, `"`) in a text. -/
def countEsc : List Nat → Nat
  | [] => 0
  | c :: cs => (if c = 10 ∨ c = 13 ∨ c = 9 ∨ c = 34 then 1 else 0) + countEsc cs

/-- Lower-case hex digit character for a value below 16 (as in `%02x`). -/
def hexDigit (n : Nat) : Char :=
  if n < 10 then Char.ofNat (48 + n) else Char.ofNat (87 + n)

/-- Text written per byte by the Bytes branch: `write!("0x{:02x}, ", byte)`. -/
def renderByte (b : Nat) : String :=
  String.mk ['0', 'x', hexDigit (b / 16), hexDigit (b % 16), ',', ' ']

/-- Hex digit value of a character, if it is a lower-case hex digit. -/
def hexCharVal (c : Char) : Option Nat :=
  if 48 ≤ c.toNat ∧ c.toNat ≤ 57 then some (c.toNat - 48)
  else if 97 ≤ c.toNat ∧ c.toNat ≤ 102 then some (c.toNat - 87)
  else none

/-- Parse one emitted `0x%02x, ` byte literal back to its value. -/
def decodeByteLit (s : String) : Option Nat :=
  match s.toList with
  | [c0, c1, h, l, c4, c5] =>
    if c0 = '0' ∧ c1 = 'x' ∧ c4 = ',' ∧ c5 = ' ' then
      match hexCharVal h, hexCharVal l with
      | some hv, some lv => some (16 * hv + lv)
      | _, _ => none
    else none
  | _ => none

/-- State machine of the byte-emission loop in `struct_fieldify_impl`:
`curr` holds the `write!` fragments of the current uncommitted line and `n`
is `bytes_in_line`; a line is committed (by `writeln!`) after its 16th value,
and a final partial line is committed after the loop when nonempty.  Returns
the committed lines, each as its list of fragments. -/
def bytesLoop : List Nat → List String → Nat → List (List String)
  | [], curr, n => if n ≠ 0 then [curr] else []
  | b :: rest, curr, n =>
    if n + 1 = 16 then (curr ++ [renderByte b]) :: bytesLoop rest [] 0
    else bytesLoop rest (curr ++ [renderByte b]) (n + 1)

/-- A node of the asset tree: what one `read_dir` entry denotes, under the
single-snapshot assumption (both passes observe the same names and contents
in the same iteration order).  `name` is the entry's file name as bytes; a
file's `contents` are its raw bytes, and `metadata().len()` is the length of
`contents`. -/
inductive Entry
  | dir (name : List Nat) (children : List Entry)
  | file (name : List Nat) (contents : List Nat)

mutual
/-- Translation of `struct_fieldify` (header pass): the lines written for one
entry.  `none` models an unwrap panic (non-UTF-8 name). -/
def struct_fieldify : Entry → Option (List String)
  | .dir name children => do
    let id ← identOf name
    let inner ← fieldifyList children
    pure (["struct \x7b"] ++ inner ++ ["\x7d " ++ scalarsToString id ++ ";"])
  | .file name contents => do
    let id ← identOf name
    match AssetOutputType.guess_from_filepath name with
    | .String =>
      pure ["const char " ++ scalarsToString id ++ "[" ++ toString contents.length ++ " + 1];",
        "const size_t " ++ scalarsToString id ++ "_len;"]
    | .Bytes =>
      pure ["const uint8_t " ++ scalarsToString id ++ "[" ++ toString contents.length ++ "];",
        "const size_t " ++ scalarsToString id ++ "_len;"]

/-- The `for entry in directory.read_dir()` loop of the header pass. -/
def fieldifyList : List Entry → Option (List String)
  | [] => some []
  | e :: es => do
    pure ((← struct_fieldify e) ++ (← fieldifyList es))
end

mutual
/-- Translation of `struct_fieldify_impl` (implementation pass).  `none`
models an unwrap panic: a String-classified file whose contents are not valid
UTF-8 (`read_to_string` fails). -/
def struct_fieldify_impl : Entry → Option (List String)
  | .dir _ children => do
    let inner ← fieldifyImplList children
    pure (["\x7b"] ++ inner ++ ["\x7d,"])
  | .file name contents =>
    match AssetOutputType.guess_from_filepath name with
    | .String => do
      let cs ← utf8Decode contents
      pure ["\"" ++ scalarsToString (escape cs) ++ "\",",
        toString (utf8Len (escape cs)) ++ ","]
    | .Bytes =>
      some (["\x7b"] ++ (bytesLoop contents [] 0).map String.join ++
        ["\x7d,", toString contents.length ++ ","])

/-- The `for entry in directory.read_dir()` loop of the implementation pass. -/
def fieldifyImplList : List Entry → Option (List String)
  | [] => some []
  | e :: es => do
    pure ((← struct_fieldify_impl e) ++ (← fieldifyImplList es))
end

/-- Translation of `generate_header`: include guard, standard includes, C++
linkage guard, the struct typedef around the fields of the children, and the
`extern` declaration. -/
def generate_header (children : List Entry) (output_name : String) : Option (List String) := do
  let body ← fieldifyList children
  pure (["#ifndef " ++ output_name.toUpper ++ "_H",
      "#define " ++ output_name.toUpper ++ "_H",
      "#include <stdint.h>",
      "#include <stddef.h>",
      "#ifdef __cplusplus",
      "extern \"C\" \x7b",
      "#endif",
      "typedef struct \x7b"] ++
    body ++
    ["\x7d __" ++ output_name ++ "_t;",
      "extern const __" ++ output_name ++ "_t " ++ output_name ++ ";",
      "#ifdef __cplusplus",
      "\x7d",
      "#endif",
      "#endif"])

/-- Translation of `generate_impl`: in single-file mode the emission is
wrapped in `#ifdef {BASE}_IMPLEMENTATION` ... `#undef` / `#endif`; in
two-file mode it starts with `#include "{base}.h"` instead.
(`String.toUpper` models Rust `to_uppercase`; they agree on ASCII.) -/
def generate_impl (children : List Entry) (output_name : String) (single_file : Bool) :
    Option (List String) := do
  let body ← fieldifyImplList children
  pure ((if single_file then ["#ifdef " ++ output_name.toUpper ++ "_IMPLEMENTATION"]
      else ["#include \"" ++ output_name ++ ".h\""]) ++
    ["#include <stddef.h>",
      "#include <stdint.h>",
      "#ifdef __cplusplus",
      "extern \"C\" \x7b",
      "#endif",
      "const __" ++ output_name ++ "_t " ++ output_name ++ " = \x7b"] ++
    body ++
    ["\x7d;",
      "#ifdef __cplusplus",
      "\x7d",
      "#endif"] ++
    (if single_file then ["#undef " ++ output_name.toUpper ++ "_IMPLEMENTATION", "#endif"]
      else []))

/-- Result of `opt.directory.canonicalize()` when it succeeds: whether the
resolved path is a directory, its `file_stem()` bytes (if any), and the
directory's entries. -/
structure DirInfo where
  isDir : Bool
  stem : Option (List Nat)
  children : List Entry

/-- The parts of the outside world `main` interacts with: the outcome of
canonicalizing the directory argument, and whether `File::create` succeeds
for a given output file name. -/
structure World where
  canonicalized : Option DirInfo
  createOk : String → Bool

/-- The parsed command line (`struct Opt`); the directory argument itself is
folded into `World.canonicalized`. -/
structure Opt where
  output : Option String
  c_file : Bool

/-- Observable outcome of a `main` run: `errorExit code msg created` models
`eprintln!(msg)` followed by `std::process::exit(code)` with `created` the
output files created (truncated) before the exit; `success files` models a
normal finish having written each named file with the given lines. -/
inductive MainOutcome
  | errorExit (code : Nat) (msg : String) (createdFiles : List String)
  | success (files : List (String × List String))

/-- Output base name: the user-supplied name if given, else the resolved
directory's `file_stem().unwrap().to_str().unwrap()` (`none` models that
unwrap panic). -/
def resolvedName (opt : Opt) (d : DirInfo) : Option String :=
  match opt.output with
  | some p => some p
  | none => (d.stem.bind utf8Decode).map scalarsToString

/-- Translation of `main`: canonicalize, directory check, output-name
derivation, header-file creation, header generation, optional separate
`.c` creation, implementation generation.  In single-file mode the
implementation lines are appended to the header file; `none` models a panic
(an `unwrap` failure inside generation or name derivation). -/
def runMain (opt : Opt) (w : World) : Option MainOutcome :=
  match w.canonicalized with
  | none => some (.errorExit 1 "Error: Invalid directory path." [])
  | some d =>
    if !d.isDir then some (.errorExit 1 "Error: Path is not a directory." [])
    else
      match resolvedName opt d with
      | none => none
      | some output_name =>
        if !w.createOk (output_name ++ ".h") then
          some (.errorExit 1 "Error: Invalid output path." [])
        else
          match generate_header d.children output_name with
          | none => none
          | some hdr =>
            if opt.c_file then
              if !w.createOk (output_name ++ ".c") then
                some (.errorExit 1 "Error: Invalid output path." [output_name ++ ".h"])
              else
                match generate_impl d.children output_name false with
                | none => none
                | some impl =>
                  some (.success [(output_name ++ ".h", hdr), (output_name ++ ".c", impl)])
            else
              match generate_impl d.children output_name true with
              | none => none
              | some impl => some (.success [(output_name ++ ".h", hdr ++ impl)])

/-- Header-side field structure, abstracting `struct_fieldify`: a nested
struct field for a subdirectory, a data field (with classification and
declared element count) and a length field for a file. -/
inductive HF
  | sub (id : List Nat) (inner : List HF)
  | data (id : List Nat) (t : AssetOutputType) (size : Nat)
  | len (id : List Nat)

/-- Implementation-side initializer-value structure, abstracting
`struct_fieldify_impl`: a nested initializer list for a subdirectory, and a
value pair per file (string literal or byte block, then the length value). -/
inductive IV
  | sub (inner : List IV)
  | str (escaped : List Nat)
  | slen (n : Nat)
  | bytes (bs : List Nat)
  | blen (n : Nat)

mutual
/-- The fields `struct_fieldify` declares for one entry, in order. -/
def headerAst : Entry → Option (List HF)
  | .dir name children => do
    let id ← identOf name
    let inner ← headerAstList children
    pure [.sub id inner]
  | .file name contents => do
    let id ← identOf name
    pure [.data id (AssetOutputType.guess_from_filepath name) contents.length, .len id]

/-- The fields declared for a sequence of sibling entries, in order. -/
def headerAstList : List Entry → Option (List HF)
  | [] => some []
  | e :: es => do
    pure ((← headerAst e) ++ (← headerAstList es))
end

mutual
/-- The initializer values `struct_fieldify_impl` emits for one entry. -/
def implAst : Entry → Option (List IV)
  | .dir _ children => do
    let inner ← implAstList children
    pure [.sub inner]
  | .file name contents =>
    match AssetOutputType.guess_from_filepath name with
    | .String => do
      let cs ← utf8Decode contents
      pure [.str (escape cs), .slen (utf8Len (escape cs))]
    | .Bytes => some [.bytes contents, .blen contents.length]

/-- The initializer values for a sequence of sibling entries, in order. -/
def implAstList : List Entry → Option (List IV)
  | [] => some []
  | e :: es => do
    pure ((← implAst e) ++ (← implAstList es))
end

mutual
/-- The header lines of one abstract field (the `writeln!` text of
`struct_fieldify` for it). -/
def renderHF : HF → List String
  | .sub id inner => ["struct \x7b"] ++ renderHFList inner ++ ["\x7d " ++ scalarsToString id ++ ";"]
  | .data id t size =>
    match t with
    | .String => ["const char " ++ scalarsToString id ++ "[" ++ toString size ++ " + 1];"]
    | .Bytes => ["const uint8_t " ++ scalarsToString id ++ "[" ++ toString size ++ "];"]
  | .len id => ["const size_t " ++ scalarsToString id ++ "_len;"]

/-- The header lines of a field sequence. -/
def renderHFList : List HF → List String
  | [] => []
  | f :: fs => renderHF f ++ renderHFList fs
end

mutual
/-- The implementation lines of one abstract initializer value. -/
def renderIV : IV → List String
  | .sub inner => ["\x7b"] ++ renderIVList inner ++ ["\x7d,"]
  | .str escaped => ["\"" ++ scalarsToString escaped ++ "\","]
  | .slen n => [toString n ++ ","]
  | .bytes bs => ["\x7b"] ++ (bytesLoop bs [] 0).map String.join ++ ["\x7d,"]
  | .blen n => [toString n ++ ","]

/-- The implementation lines of an initializer-value sequence. -/
def renderIVList : List IV → List String
  | [] => []
  | v :: vs => renderIV v ++ renderIVList vs
end

mutual
/-- Pointwise structural correspondence of one header field with one
initializer value: a nested struct field matches a nested initializer list
(recursively), a String data field matches a string literal, a Bytes data
field matches a byte block, and a length field matches a length value. -/
def alignedF : HF → IV → Bool
  | .sub _ hs, .sub ivs => alignedL hs ivs
  | .data _ .String _, .str _ => true
  | .data _ .Bytes _, .bytes _ => true
  | .len _, .slen _ => true
  | .len _, .blen _ => true
  | _, _ => false

/-- Pointwise correspondence of a field sequence with a value sequence. -/
def alignedL : List HF → List IV → Bool
  | [], [] => true
  | f :: fs, v :: vs => alignedF f v && alignedL fs vs
  | _, _ => false
end

/-- Number of file children in a sequence of entries. -/
def countFiles : List Entry → Nat
  | [] => 0
  | .file _ _ :: es => countFiles es + 1
  | .dir _ _ :: es => countFiles es

/-- Number of subdirectory children in a sequence of entries. -/
def countDirs : List Entry → Nat
  | [] => 0
  | .file _ _ :: es => countDirs es
  | .dir _ _ :: es => countDirs es + 1

theorem concatMap_append (f : α → List β) (l1 l2 : List α) :
    concatMap f (l1 ++ l2) = concatMap f l1 ++ concatMap f l2 := by
  induction l1 with
  | nil => simp [concatMap]
  | cons a l ih => simp [concatMap, ih]

theorem concatMap_concatMap (f : α → List β) (g : β → List γ) (l : List α) :
    concatMap g (concatMap f l) = concatMap (fun a => concatMap g (f a)) l := by
  induction l with
  | nil => simp [concatMap]
  | cons a l ih => simp [concatMap, concatMap_append, ih]

theorem concatMap_congr {f g : α → List β} (h : ∀ a, f a = g a) (l : List α) :
    concatMap f l = concatMap g l := by
  induction l with
  | nil => rfl
  | cons a l ih => simp [concatMap, h a, ih]

theorem replace1_eq_concatMap (pat : Nat) (rep : List Nat) (l : List Nat) :
    replace1 pat rep l = concatMap (fun c => if c = pat then rep else [c]) l := by
  induction l with
  | nil => rfl
  | cons c cs ih => simp [replace1, concatMap, ih]

/-- The four sequential replacement passes amount to a single simultaneous
per-character substitution: no pass produces a character that a later pass
rewrites. -/
theorem escape_eq_concatMap (cs : List Nat) : escape cs = concatMap escChar cs := by
  unfold escape
  rw [replace1_eq_concatMap 10, replace1_eq_concatMap 13, replace1_eq_concatMap 9,
    replace1_eq_concatMap 34]
  rw [concatMap_concatMap, concatMap_concatMap, concatMap_concatMap]
  refine concatMap_congr (fun c => ?_) cs
  by_cases h10 : c = 10
  · subst h10; rfl
  · by_cases h13 : c = 13
    · subst h13; rfl
    · by_cases h9 : c = 9
      · subst h9; rfl
      · by_cases h34 : c = 34
        · subst h34; rfl
        · simp [concatMap, escChar, h10, h13, h9, h34]

theorem utf8Len_append (l1 l2 : List Nat) :
    utf8Len (l1 ++ l2) = utf8Len l1 + utf8Len l2 := by
  induction l1 with
  | nil => simp [utf8Len]
  | cons c cs ih => simp [utf8Len, ih]; omega

/-- Escaping adds exactly one byte per escapable character. -/
theorem utf8Len_escape (cs : List Nat) :
    utf8Len (escape cs) = utf8Len cs + countEsc cs := by
  rw [escape_eq_concatMap]
  induction cs with
  | nil => rfl
  | cons c cs ih =>
    simp only [concatMap, utf8Len_append, ih, utf8Len, countEsc]
    by_cases h10 : c = 10
    · subst h10; simp [escChar, utf8Len, scalarUtf8Size]; omega
    · by_cases h13 : c = 13
      · subst h13; simp [escChar, utf8Len, scalarUtf8Size]; omega
      · by_cases h9 : c = 9
        · subst h9; simp [escChar, utf8Len, scalarUtf8Size]; omega
        · by_cases h34 : c = 34
          · subst h34; simp [escChar, utf8Len, scalarUtf8Size]; omega
          · simp [escChar, h10, h13, h9, h34, utf8Len]; omega

/-- A single-character replacement by a single character is a plain map. -/
theorem replace1_single (p q : Nat) (l : List Nat) :
    replace1 p [q] l = l.map (fun c => if c = p then q else c) := by
  induction l with
  | nil => rfl
  | cons c cs ih =>
    by_cases h : c = p
    · simp [replace1, h, ih]
    · simp [replace1, h, ih]

/-- A list without the pattern is left unchanged by `replace1`. -/
theorem replace1_of_not_mem (p : Nat) (rep : List Nat) (l : List Nat) (h : p ∉ l) :
    replace1 p rep l = l := by
  induction l with
  | nil => rfl
  | cons c cs ih =>
    simp only [List.mem_cons, not_or] at h
    have hne : ¬ c = p := fun hc => h.1 hc.symm
    simp [replace1, hne, ih h.2]

/-- The committed fragments of the byte loop, flattened, are exactly one
rendered literal per input byte, in input order. -/
theorem bytesLoop_concat : ∀ (bs : List Nat) (curr : List String) (n : Nat),
    curr.length = n →
    concatMap id (bytesLoop bs curr n) = curr ++ bs.map renderByte := by
  intro bs
  induction bs with
  | nil =>
    intro curr n hn
    by_cases h : n ≠ 0
    · simp [bytesLoop, h, concatMap]
    · simp only [not_not] at h
      subst h
      have : curr = [] := List.length_eq_zero.mp hn
      subst this
      simp [bytesLoop, concatMap]
  | cons b rest ih =>
    intro curr n hn
    by_cases h : n + 1 = 16
    · simp only [bytesLoop, if_pos h, concatMap, id]
      rw [ih [] 0 rfl]
      simp [List.map_cons]
    · simp only [bytesLoop, if_neg h]
      rw [ih (curr ++ [renderByte b]) (n + 1) (by simp [hn])]
      simp

/-- Every committed line of the byte loop holds at most 16 byte values. -/
theorem bytesLoop_le16 : ∀ (bs : List Nat) (curr : List String) (n : Nat),
    curr.length = n → n < 16 →
    ∀ line ∈ bytesLoop bs curr n, line.length ≤ 16 := by
  intro bs
  induction bs with
  | nil =>
    intro curr n hn hlt line hline
    by_cases h : n ≠ 0
    · simp only [bytesLoop, if_pos h, List.mem_singleton] at hline
      subst hline
      omega
    · simp only [bytesLoop, if_neg h] at hline
      exact absurd hline (List.not_mem_nil line)
  | cons b rest ih =>
    intro curr n hn hlt line hline
    by_cases h : n + 1 = 16
    · simp only [bytesLoop, if_pos h, List.mem_cons] at hline
      rcases hline with hline | hline
      · subst hline
        simp [hn]
        omega
      · exact ih [] 0 rfl (by omega) line hline
    · simp only [bytesLoop, if_neg h] at hline
      exact ih (curr ++ [renderByte b]) (n + 1) (by simp [hn]) (by omega) line hline

theorem hexCharVal_hexDigit : ∀ d : Nat, d < 16 → hexCharVal (hexDigit d) = some d := by
  decide

/-- Parsing an emitted byte literal recovers the original byte value. -/
theorem decodeByteLit_renderByte (b : Nat) (hb : b < 256) :
    decodeByteLit (renderByte b) = some b := by
  have hhi : b / 16 < 16 := by omega
  have hlo : b % 16 < 16 := by omega
  have h1 := hexCharVal_hexDigit (b / 16) hhi
  have h2 := hexCharVal_hexDigit (b % 16) hlo
  simp only [decodeByteLit, renderByte, String.toList]
  simp only [h1, h2]
  have hd : 16 * (b / 16) + b % 16 = b := by omega
  simp [hd]

theorem renderHFList_append (a b : List HF) :
    renderHFList (a ++ b) = renderHFList a ++ renderHFList b := by
  induction a with
  | nil => simp [renderHFList]
  | cons f fs ih => simp [renderHFList, ih]

theorem renderIVList_append (a b : List IV) :
    renderIVList (a ++ b) = renderIVList a ++ renderIVList b := by
  induction a with
  | nil => simp [renderIVList]
  | cons v vs ih => simp [renderIVList, ih]

mutual
/-- The text the header pass emits for one entry is the rendering of its
abstract field list. -/
theorem struct_fieldify_eq_render : (e : Entry) →
    struct_fieldify e = (headerAst e).map renderHFList
  | .dir name children => by
    have ih := fieldifyList_eq_render children
    cases hid : identOf name with
    | none => simp [struct_fieldify, headerAst, hid]
    | some id =>
      cases hin : headerAstList children with
      | none => simp [struct_fieldify, headerAst, hid, hin, ih]
      | some hfs =>
        simp [struct_fieldify, headerAst, hid, hin, ih, renderHFList, renderHF]
  | .file name contents => by
    cases hid : identOf name with
    | none => simp [struct_fieldify, headerAst, hid]
    | some id =>
      cases hg : AssetOutputType.guess_from_filepath name with
      | String => simp [struct_fieldify, headerAst, hid, hg, renderHFList, renderHF]
      | Bytes => simp [struct_fieldify, headerAst, hid, hg, renderHFList, renderHF]

/-- The text the header pass emits for a sibling sequence is the rendering of
its abstract field list. -/
theorem fieldifyList_eq_render : (es : List Entry) →
    fieldifyList es = (headerAstList es).map renderHFList
  | [] => by simp [fieldifyList, headerAstList, renderHFList]
  | e :: es => by
    have ih1 := struct_fieldify_eq_render e
    have ih2 := fieldifyList_eq_render es
    cases h1 : headerAst e with
    | none => simp [fieldifyList, headerAstList, ih1, ih2, h1]
    | some fs =>
      cases h2 : headerAstList es with
      | none => simp [fieldifyList, headerAstList, ih1, ih2, h1, h2]
      | some fss =>
        simp [fieldifyList, headerAstList, ih1, ih2, h1, h2, renderHFList_append]
end

mutual
/-- The text the implementation pass emits for one entry is the rendering of
its abstract initializer-value list. -/
theorem struct_fieldify_impl_eq_render : (e : Entry) →
    struct_fieldify_impl e = (implAst e).map renderIVList
  | .dir name children => by
    have ih := fieldifyImplList_eq_render children
    cases hin : implAstList children with
    | none => simp [struct_fieldify_impl, implAst, hin, ih]
    | some ivs =>
      simp [struct_fieldify_impl, implAst, hin, ih, renderIVList, renderIV]
  | .file name contents => by
    cases hg : AssetOutputType.guess_from_filepath name with
    | String =>
      cases hdc : utf8Decode contents with
      | none => simp [struct_fieldify_impl, implAst, hg, hdc]
      | some cs => simp [struct_fieldify_impl, implAst, hg, hdc, renderIVList, renderIV]
    | Bytes => simp [struct_fieldify_impl, implAst, hg, renderIVList, renderIV]

/-- The text the implementation pass emits for a sibling sequence is the
rendering of its abstract initializer-value list. -/
theorem fieldifyImplList_eq_render : (es : List Entry) →
    fieldifyImplList es = (implAstList es).map renderIVList
  | [] => by simp [fieldifyImplList, implAstList, renderIVList]
  | e :: es => by
    have ih1 := struct_fieldify_impl_eq_render e
    have ih2 := fieldifyImplList_eq_render es
    cases h1 : implAst e with
    | none => simp [fieldifyImplList, implAstList, ih1, ih2, h1]
    | some vs =>
      cases h2 : implAstList es with
      | none => simp [fieldifyImplList, implAstList, ih1, ih2, h1, h2]
      | some vss =>
        simp [fieldifyImplList, implAstList, ih1, ih2, h1, h2, renderIVList_append]
end

theorem alignedL_append {fs fss : List HF} {vs vss : List IV}
    (h1 : alignedL fs vs = true) (h2 : alignedL fss vss = true) :
    alignedL (fs ++ fss) (vs ++ vss) = true := by
  induction fs generalizing vs with
  | nil =>
    cases vs with
    | nil => simpa using h2
    | cons v vs => simp [alignedL] at h1
  | cons f fs ih =>
    cases vs with
    | nil => simp [alignedL] at h1
    | cons v vs =>
      simp only [alignedL, Bool.and_eq_true] at h1
      simp only [List.cons_append, alignedL, Bool.and_eq_true]
      exact ⟨h1.1, ih h1.2⟩

theorem alignedL_length : ∀ {fs : List HF} {vs : List IV},
    alignedL fs vs = true → fs.length = vs.length := by
  intro fs
  induction fs with
  | nil =>
    intro vs h
    cases vs with
    | nil => rfl
    | cons v vs => simp [alignedL] at h
  | cons f fs ih =>
    intro vs h
    cases vs with
    | nil => simp [alignedL] at h
    | cons v vs =>
      simp only [alignedL, Bool.and_eq_true] at h
      simp [ih h.2]

mutual
/-- Header fields and implementation initializer values correspond pointwise
for every entry, at every nesting level: the key fact is that both passes
call the same classifier on the same name, so a String data field always
faces a string literal and a Bytes data field a byte block. -/
theorem aligned_entry : (e : Entry) → ∀ hfs ivs,
    headerAst e = some hfs → implAst e = some ivs → alignedL hfs ivs = true
  | .dir name children => by
    intro hfs ivs hh hi
    simp only [headerAst] at hh
    simp only [implAst] at hi
    cases hid : identOf name with
    | none => rw [hid] at hh; simp at hh
    | some id =>
      rw [hid] at hh
      simp only [Option.bind_eq_bind, Option.some_bind] at hh
      cases hin : headerAstList children with
      | none => rw [hin] at hh; simp at hh
      | some hs =>
        rw [hin] at hh
        simp only [Option.bind_eq_bind, Option.some_bind, Option.pure_def, Option.some.injEq] at hh
        cases hil : implAstList children with
        | none => rw [hil] at hi; simp at hi
        | some is2 =>
          rw [hil] at hi
          simp only [Option.bind_eq_bind, Option.some_bind, Option.pure_def, Option.some.injEq] at hi
          subst hh
          subst hi
          have ih := aligned_list children hs is2 hin hil
          simp [alignedL, alignedF, ih]
  | .file name contents => by
    intro hfs ivs hh hi
    simp only [headerAst] at hh
    simp only [implAst] at hi
    cases hid : identOf name with
    | none => rw [hid] at hh; simp at hh
    | some id =>
      rw [hid] at hh
      simp only [Option.bind_eq_bind, Option.some_bind, Option.pure_def, Option.some.injEq] at hh
      subst hh
      cases hg : AssetOutputType.guess_from_filepath name with
      | String =>
        rw [hg] at hi
        cases hdc : utf8Decode contents with
        | none => rw [hdc] at hi; simp at hi
        | some cs =>
          rw [hdc] at hi
          simp only [Option.bind_eq_bind, Option.some_bind, Option.pure_def, Option.some.injEq] at hi
          subst hi
          simp [alignedL, alignedF, hg]
      | Bytes =>
        rw [hg] at hi
        simp only [Option.some.injEq] at hi
        subst hi
        simp [alignedL, alignedF, hg]

/-- Header fields and initializer values correspond pointwise for every
sibling sequence. -/
theorem aligned_list : (es : List Entry) → ∀ hfs ivs,
    headerAstList es = some hfs → implAstList es = some ivs → alignedL hfs ivs = true
  | [] => by
    intro hfs ivs hh hi
    simp only [headerAstList, Option.some.injEq] at hh
    simp only [implAstList, Option.some.injEq] at hi
    subst hh
    subst hi
    rfl
  | e :: es => by
    intro hfs ivs hh hi
    simp only [headerAstList] at hh
    simp only [implAstList] at hi
    cases h1 : headerAst e with
    | none => rw [h1] at hh; simp at hh
    | some fs =>
      rw [h1] at hh
      simp only [Option.bind_eq_bind, Option.some_bind] at hh
      cases h2 : headerAstList es with
      | none => rw [h2] at hh; simp at hh
      | some fss =>
        rw [h2] at hh
        simp only [Option.bind_eq_bind, Option.some_bind, Option.pure_def, Option.some.injEq] at hh
        subst hh
        cases h3 : implAst e with
        | none => rw [h3] at hi; simp at hi
        | some vs =>
          rw [h3] at hi
          simp only [Option.bind_eq_bind, Option.some_bind] at hi
          cases h4 : implAstList es with
          | none => rw [h4] at hi; simp at hi
          | some vss =>
            rw [h4] at hi
            simp only [Option.bind_eq_bind, Option.some_bind, Option.pure_def, Option.some.injEq] at hi
            subst hi
            exact alignedL_append (aligned_entry e fs vs h1 h3) (aligned_list es fss vss h2 h4)
end

/-- The header declares two fields per file child and one per subdirectory
child, per directory level. -/
theorem headerAstList_length : ∀ (es : List Entry) (hfs : List HF),
    headerAstList es = some hfs → hfs.length = 2 * countFiles es + countDirs es := by
  intro es
  induction es with
  | nil =>
    intro hfs hh
    simp only [headerAstList, Option.some.injEq] at hh
    subst hh
    rfl
  | cons e es ih =>
    intro hfs hh
    simp only [headerAstList] at hh
    cases h1 : headerAst e with
    | none => rw [h1] at hh; simp at hh
    | some fs =>
      rw [h1] at hh
      simp only [Option.bind_eq_bind, Option.some_bind] at hh
      cases h2 : headerAstList es with
      | none => rw [h2] at hh; simp at hh
      | some fss =>
        rw [h2] at hh
        simp only [Option.bind_eq_bind, Option.some_bind, Option.pure_def, Option.some.injEq] at hh
        subst hh
        have hlen : fs.length = match e with | .dir _ _ => 1 | .file _ _ => 2 := by
          cases e with
          | dir name children =>
            simp only [headerAst] at h1
            cases hid : identOf name with
            | none => rw [hid] at h1; simp at h1
            | some id =>
              rw [hid] at h1
              simp only [Option.bind_eq_bind, Option.some_bind] at h1
              cases hin : headerAstList children with
              | none => rw [hin] at h1; simp at h1
              | some hs =>
                rw [hin] at h1
                simp only [Option.bind_eq_bind, Option.some_bind, Option.pure_def, Option.some.injEq] at h1
                simp [← h1]
          | file name contents =>
            simp only [headerAst] at h1
            cases hid : identOf name with
            | none => rw [hid] at h1; simp at h1
            | some id =>
              rw [hid] at h1
              simp only [Option.bind_eq_bind, Option.some_bind, Option.pure_def, Option.some.injEq] at h1
              simp [← h1]
        cases e with
        | dir name children =>
          simp only [countFiles, countDirs, List.length_append, ih fss h2]
          simp only at hlen
          omega
        | file name contents =>
          simp only [countFiles, countDirs, List.length_append, ih fss h2]
          simp only at hlen
          omega

/-- Demo asset tree: `a.txt` with content `hi`, and `sub/` with `b.bin`
containing the bytes 1, 2. -/
def demoChildren : List Entry :=
  [.file (strScalars "a.txt") [104, 105],
   .dir (strScalars "sub") [.file (strScalars "b.bin") [1, 2]]]

/-- Header field structure of `demoChildren`. -/
def demoHfs : List HF :=
  [.data [97] .String 2, .len [97],
   .sub [115, 117, 98] [.data [98] .Bytes 2, .len [98]]]

/-- Initializer value structure of `demoChildren`. -/
def demoIvs : List IV :=
  [.str [104, 105], .slen 2,
   .sub [.bytes [1, 2], .blen 2]]

/-- Seventeen demo bytes, enough to overflow one 16-value line. -/
def demoBytes : List Nat :=
  [0, 1, 2, 3, 4, 5, 6, 7, 8, 9, 10, 11, 12, 13, 14, 15, 255]

/-- C1: classification into `StringAsset`/`BytesAsset` is a pure function of
the path's file name alone: it is `StringAsset` exactly when the name has an
extension that decodes as UTF-8 to one of the fourteen allow-listed
extensions, and `BytesAsset` in every other case (no extension, a
non-decodable extension, or any extension outside the list). -/
theorem guess_from_filepath_spec (name : List Nat) :
    (AssetOutputType.guess_from_filepath name = .String ↔
      ∃ e s, extension name = some e ∧ utf8Decode e = some s ∧
        s ∈ allowedExtensions.map strScalars) ∧
    (AssetOutputType.guess_from_filepath name = .Bytes ↔
      ¬ ∃ e s, extension name = some e ∧ utf8Decode e = some s ∧
        s ∈ allowedExtensions.map strScalars) := by
  cases he : extension name with
  | none => simp [AssetOutputType.guess_from_filepath, he]
  | some e =>
    cases hd : utf8Decode e with
    | none => simp [AssetOutputType.guess_from_filepath, he, hd]
    | some s =>
      by_cases hm : s ∈ allowedExtensions.map strScalars
      · simp [AssetOutputType.guess_from_filepath, he, hd, hm]
        exact List.mem_map.mp hm
      · simp [AssetOutputType.guess_from_filepath, he, hd, hm]
        intro x hx hsx
        exact hm (List.mem_map.mpr ⟨x, hx, hsx⟩)

/-- C2: assuming both passes observe the same children in the same iteration
order, header and implementation agree in structure: the emitted header text
renders the abstract field list, the emitted implementation text renders the
abstract value list, the two lists correspond pointwise at every nesting
level (`alignedL` recurses into subdirectories), and per directory level the
field count equals twice the number of file children (data then length) plus
one per subdirectory child, on both sides. -/
theorem header_impl_alignment_spec (children : List Entry) (hfs : List HF) (ivs : List IV)
    (hh : headerAstList children = some hfs) (hi : implAstList children = some ivs) :
    fieldifyList children = some (renderHFList hfs) ∧
    fieldifyImplList children = some (renderIVList ivs) ∧
    alignedL hfs ivs = true ∧
    hfs.length = 2 * countFiles children + countDirs children ∧
    ivs.length = 2 * countFiles children + countDirs children := by
  have ha := aligned_list children hfs ivs hh hi
  refine ⟨?_, ?_, ha, ?_, ?_⟩
  · rw [fieldifyList_eq_render, hh]; rfl
  · rw [fieldifyImplList_eq_render, hi]; rfl
  · exact headerAstList_length children hfs hh
  · rw [← alignedL_length ha]
    exact headerAstList_length children hfs hh

theorem header_impl_alignment_witness :
    fieldifyList demoChildren = some (renderHFList demoHfs) ∧
    fieldifyImplList demoChildren = some (renderIVList demoIvs) ∧
    alignedL demoHfs demoIvs = true ∧
    demoHfs.length = 2 * countFiles demoChildren + countDirs demoChildren ∧
    demoIvs.length = 2 * countFiles demoChildren + countDirs demoChildren :=
  header_impl_alignment_spec demoChildren demoHfs demoIvs (by rfl) (by rfl)

/-- C3: for a Bytes-classified file the implementation pass emits an opening
brace line, the hex byte lines, a closing brace line and the length line; the
emitted fragments, flattened, are one `0x%02x, ` literal per original byte in
order, decoding the literals reproduces the exact original bytes, each
committed line holds at most 16 byte values, and the companion length is the
exact byte count. -/
theorem bytes_asset_roundtrip_spec (name bs : List Nat)
    (hg : AssetOutputType.guess_from_filepath name = .Bytes)
    (hb : ∀ b ∈ bs, b < 256) :
    struct_fieldify_impl (.file name bs) =
      some (["\x7b"] ++ (bytesLoop bs [] 0).map String.join ++
        ["\x7d,", toString bs.length ++ ","]) ∧
    concatMap id (bytesLoop bs [] 0) = bs.map renderByte ∧
    (bs.map renderByte).map decodeByteLit = bs.map some ∧
    (∀ line ∈ bytesLoop bs [] 0, line.length ≤ 16) := by
  refine ⟨?_, ?_, ?_, ?_⟩
  · simp [struct_fieldify_impl, hg]
  · exact bytesLoop_concat bs [] 0 rfl
  · rw [List.map_map]
    apply List.map_congr_left
    intro b hbmem
    exact decodeByteLit_renderByte b (hb b hbmem)
  · exact bytesLoop_le16 bs [] 0 rfl (by omega)

theorem bytes_asset_roundtrip_witness :
    concatMap id (bytesLoop demoBytes [] 0) = demoBytes.map renderByte ∧
    (demoBytes.map renderByte).map decodeByteLit = demoBytes.map some ∧
    (∀ line ∈ bytesLoop demoBytes [] 0, line.length ≤ 16) :=
  ⟨(bytes_asset_roundtrip_spec (strScalars "b.bin") demoBytes (by decide) (by decide)).2.1,
   (bytes_asset_roundtrip_spec (strScalars "b.bin") demoBytes (by decide) (by decide)).2.2.1,
   (bytes_asset_roundtrip_spec (strScalars "b.bin") demoBytes (by decide) (by decide)).2.2.2⟩

/-- C4: for a String-classified file whose raw bytes decode as UTF-8, the
implementation emits the escaped text as a single double-quoted literal; the
escaping is the four sequential full-content replacement passes in source
order (`\n`, `\r`, `\t`, `"`); the companion length is the byte length of the
escaped text, namely the raw byte length plus the number of escapable
characters — not the raw byte length — and never less than the raw length. -/
theorem string_asset_len_spec (name bs cs : List Nat)
    (hg : AssetOutputType.guess_from_filepath name = .String)
    (hdc : utf8Decode bs = some cs) :
    struct_fieldify_impl (.file name bs) =
      some ["\"" ++ scalarsToString (escape cs) ++ "\",",
        toString (utf8Len (escape cs)) ++ ","] ∧
    escape cs = replace1 34 [92, 34] (replace1 9 [92, 116] (replace1 13 [92, 114]
      (replace1 10 [92, 110] cs))) ∧
    utf8Len (escape cs) = bs.length + countEsc cs ∧
    bs.length ≤ utf8Len (escape cs) := by
  refine ⟨?_, rfl, ?_, ?_⟩
  · simp [struct_fieldify_impl, hg, hdc]
  · rw [utf8Len_escape, utf8Decode_length hdc]
  · rw [utf8Len_escape, utf8Decode_length hdc]
    omega

theorem string_asset_len_witness :
    struct_fieldify_impl (.file (strScalars "a.txt") [104, 105, 10, 34]) =
      some ["\"" ++ scalarsToString (escape [104, 105, 10, 34]) ++ "\",",
        toString (utf8Len (escape [104, 105, 10, 34])) ++ ","] ∧
    utf8Len (escape [104, 105, 10, 34]) = 6 :=
  ⟨(string_asset_len_spec (strScalars "a.txt") [104, 105, 10, 34] [104, 105, 10, 34]
      (by decide) (by decide)).1,
   by decide⟩

/-- C5: the header pass emits exactly two declarations per file child: for a
String asset a `const char` data array sized one past the file's byte length
(room for a trailing null), for a Bytes asset a `const uint8_t` data array
sized exactly the file's byte length, in both cases followed by the
`const size_t` length field. -/
theorem header_file_fields_spec (name bs id : List Nat)
    (hid : identOf name = some id) :
    (AssetOutputType.guess_from_filepath name = .String →
      struct_fieldify (.file name bs) =
        some ["const char " ++ scalarsToString id ++ "[" ++ toString bs.length ++ " + 1];",
          "const size_t " ++ scalarsToString id ++ "_len;"]) ∧
    (AssetOutputType.guess_from_filepath name = .Bytes →
      struct_fieldify (.file name bs) =
        some ["const uint8_t " ++ scalarsToString id ++ "[" ++ toString bs.length ++ "];",
          "const size_t " ++ scalarsToString id ++ "_len;"]) := by
  constructor
  · intro hg
    simp [struct_fieldify, hid, hg]
  · intro hg
    simp [struct_fieldify, hid, hg]

theorem header_file_fields_witness :
    struct_fieldify (.file (strScalars "a.txt") [104, 105]) =
      some ["const char a[2 + 1];", "const size_t a_len;"] := by
  have h := (header_file_fields_spec (strScalars "a.txt") [104, 105] [97] (by decide)).1
    (by decide)
  rw [h]
  decide

/-- C6: a failed canonicalization, a resolved non-directory, and a failed
output-file creation each print their diagnostic and exit with status 1; the
two directory checks run before any `File::create`, so in the nonexistent
and non-directory cases no output file is created or modified.  A failure to
create the separate `.c` file happens after the header file was created. -/
theorem main_error_exit_spec (opt : Opt) (w : World) :
    (w.canonicalized = none →
      runMain opt w = some (.errorExit 1 "Error: Invalid directory path." [])) ∧
    (∀ d, w.canonicalized = some d → d.isDir = false →
      runMain opt w = some (.errorExit 1 "Error: Path is not a directory." [])) ∧
    (∀ d oname, w.canonicalized = some d → d.isDir = true →
      resolvedName opt d = some oname → w.createOk (oname ++ ".h") = false →
      runMain opt w = some (.errorExit 1 "Error: Invalid output path." [])) ∧
    (∀ d oname hdr, w.canonicalized = some d → d.isDir = true →
      resolvedName opt d = some oname → w.createOk (oname ++ ".h") = true →
      generate_header d.children oname = some hdr → opt.c_file = true →
      w.createOk (oname ++ ".c") = false →
      runMain opt w = some (.errorExit 1 "Error: Invalid output path." [oname ++ ".h"])) := by
  refine ⟨?_, ?_, ?_, ?_⟩
  · intro h
    simp [runMain, h]
  · intro d hc hd
    simp [runMain, hc, hd]
  · intro d oname hc hd hr hcr
    simp [runMain, hc, hd, hr, hcr]
  · intro d oname hdr hc hd hr hcr hgh hcf hcc
    simp [runMain, hc, hd, hr, hcr, hgh, hcf, hcc]

theorem main_error_exit_witness :
    runMain (Opt.mk (some "assets") false) (World.mk none (fun _ => true)) =
      some (.errorExit 1 "Error: Invalid directory path." []) :=
  (main_error_exit_spec (Opt.mk (some "assets") false) (World.mk none (fun _ => true))).1 rfl

/-- C7: the implementation emission differs between modes only by its
wrapping: single-file mode brackets the common middle with `#ifdef
{BASE}_IMPLEMENTATION` at the start and `#undef {BASE}_IMPLEMENTATION` /
`#endif` at the end, while two-file mode precedes the same middle with
`#include "{base}.h"` alone and no macro guard; at the `main` level,
single-file mode appends the implementation lines to the header file, while
two-file mode leaves `{base}.h` with the declaration only and writes the
implementation to `{base}.c`. -/
theorem impl_modes_spec :
    (∀ (children : List Entry) (base : String) (body : List String),
      fieldifyImplList children = some body →
      ∃ mid,
        generate_impl children base true =
          some (("#ifdef " ++ base.toUpper ++ "_IMPLEMENTATION") :: mid ++
            ["#undef " ++ base.toUpper ++ "_IMPLEMENTATION", "#endif"]) ∧
        generate_impl children base false =
          some (("#include \"" ++ base ++ ".h\"") :: mid)) ∧
    (∀ (opt : Opt) (w : World) (d : DirInfo) (oname : String) (hdr impl : List String),
      w.canonicalized = some d → d.isDir = true → resolvedName opt d = some oname →
      w.createOk (oname ++ ".h") = true → generate_header d.children oname = some hdr →
      ((opt.c_file = false → generate_impl d.children oname true = some impl →
        runMain opt w = some (.success [(oname ++ ".h", hdr ++ impl)])) ∧
       (opt.c_file = true → w.createOk (oname ++ ".c") = true →
        generate_impl d.children oname false = some impl →
        runMain opt w = some (.success [(oname ++ ".h", hdr), (oname ++ ".c", impl)])))) := by
  constructor
  · intro children base body hb
    refine ⟨["#include <stddef.h>", "#include <stdint.h>", "#ifdef __cplusplus",
      "extern \"C\" \x7b", "#endif",
      "const __" ++ base ++ "_t " ++ base ++ " = \x7b"] ++ body ++
      ["\x7d;", "#ifdef __cplusplus", "\x7d", "#endif"], ?_, ?_⟩
    · simp [generate_impl, hb]
    · simp [generate_impl, hb]
  · intro opt w d oname hdr impl hc hd hr hcr hgh
    constructor
    · intro hcf hgi
      simp [runMain, hc, hd, hr, hcr, hgh, hcf, hgi]
    · intro hcf hcc hgi
      simp [runMain, hc, hd, hr, hcr, hgh, hcf, hcc, hgi]

theorem impl_modes_witness :
    ∃ mid,
      generate_impl demoChildren "assets" true =
        some (("#ifdef " ++ ("assets" : String).toUpper ++ "_IMPLEMENTATION") :: mid ++
          ["#undef " ++ ("assets" : String).toUpper ++ "_IMPLEMENTATION", "#endif"]) ∧
      generate_impl demoChildren "assets" false =
        some (("#include \"" ++ "assets" ++ ".h\"") :: mid) :=
  impl_modes_spec.1 demoChildren "assets" (renderIVList demoIvs)
    (by rw [fieldifyImplList_eq_render]; rfl)

/-- C8: the generated C identifier is the name's stem with every `-` replaced
by `_` and no other transformation: the replacement is a plain per-character
map, `my-asset.txt` yields `my_asset`, and a stem containing no `-` passes
through unchanged. -/
theorem identifier_derivation_spec :
    (∀ s : List Nat, replace1 45 [95] s = s.map (fun c => if c = 45 then 95 else c)) ∧
    identOf (strScalars "my-asset.txt") = some (strScalars "my_asset") ∧
    (∀ name stem : List Nat, utf8Decode (fileStem name) = some stem → 45 ∉ stem →
      identOf name = some stem) := by
  refine ⟨fun s => replace1_single 45 95 s, by decide, ?_⟩
  intro name stem hd hnm
  simp [identOf, hd, replace1_of_not_mem 45 [95] stem hnm]

theorem identifier_derivation_witness :
    identOf (strScalars "sub") = some (strScalars "sub") :=
  identifier_derivation_spec.2.2 (strScalars "sub") (strScalars "sub") (by decide) (by decide)

/-- C9: the escaping rewrites exactly the four characters `\n`, `\r`, `\t`,
`"` and copies every other character, backslash included, verbatim; hence it
is not injective: the two-character content backslash-`n` and the
single-newline content yield the same emitted literal text. -/
theorem escape_verbatim_noninjective_spec :
    (∀ cs : List Nat, escape cs = concatMap escChar cs) ∧
    (∀ c : Nat, c ≠ 10 → c ≠ 13 → c ≠ 9 → c ≠ 34 → escape [c] = [c]) ∧
    escape [92, 110] = escape [10] ∧ ([92, 110] : List Nat) ≠ [10] := by
  refine ⟨escape_eq_concatMap, ?_, by decide, by decide⟩
  intro c h10 h13 h9 h34
  rw [escape_eq_concatMap]
  simp [concatMap, escChar, h10, h13, h9, h34]

theorem escape_verbatim_noninjective_witness :
    escape [92] = [92] ∧ escape [92, 110] = escape [10] :=
  ⟨escape_verbatim_noninjective_spec.2.1 92 (by decide) (by decide) (by decide) (by decide),
   escape_verbatim_noninjective_spec.2.2.1⟩

/-- C10: for a String asset with valid UTF-8 content the header declares the
data array with capacity one past the raw byte length, while the emitted
length value is the raw byte length plus the number of escapable characters;
so the emitted length strictly exceeds the declared capacity whenever the
content holds at least two escapable characters. -/
theorem string_len_exceeds_capacity_spec (name bs cs id : List Nat)
    (hg : AssetOutputType.guess_from_filepath name = .String)
    (hdc : utf8Decode bs = some cs) (hid : identOf name = some id) :
    struct_fieldify (.file name bs) =
      some ["const char " ++ scalarsToString id ++ "[" ++ toString bs.length ++ " + 1];",
        "const size_t " ++ scalarsToString id ++ "_len;"] ∧
    utf8Len (escape cs) = bs.length + countEsc cs ∧
    (2 ≤ countEsc cs → bs.length + 1 < utf8Len (escape cs)) := by
  refine ⟨?_, ?_, ?_⟩
  · simp [struct_fieldify, hid, hg]
  · rw [utf8Len_escape, utf8Decode_length hdc]
  · intro h2
    rw [utf8Len_escape, utf8Decode_length hdc]
    omega

theorem string_len_exceeds_capacity_witness :
    utf8Len (escape [104, 105, 10, 34]) = 6 ∧
    4 + 1 < utf8Len (escape [104, 105, 10, 34]) := by
  have h := string_len_exceeds_capacity_spec (strScalars "a.txt") [104, 105, 10, 34]
    [104, 105, 10, 34] [97] (by decide) (by decide) (by decide)
  exact ⟨by decide, h.2.2 (by decide)⟩

end Finch
